import Mathlib

/-!
Verification of the sovereign-tee-core secret-custody library.

The program works over the secp256k1 scalar field (the `k256` crate's
`Scalar` type, integers modulo the curve order).  We embed that field as
`ZMod p`; the program's modulus is `secpOrder` below, and theorems that
need field structure are stated for an arbitrary prime modulus `p`
(secp256k1's group order is prime, so the program's instantiation is the
case `p = secpOrder`).

Rust panics (a failed `assert!`, `CtOption::unwrap` on `None`,
`GenericArray::from_slice` on a wrong-length slice) are modelled as
explicit `panicked` / `none` results, kept distinct from typed `Err`
returns.
-/

namespace STC

/-- The order of the secp256k1 scalar field (the modulus of `k256::Scalar`). -/
def secpOrder : ℕ :=
  115792089237316195423570985008687907852837564279074904382605163141518161494337

instance : NeZero secpOrder := ⟨by norm_num [secpOrder]⟩

section FieldDefs

variable (p : ℕ)

/-- `Scalar::from(x as u64)`: a `usize` index is cast to `u64` (reduction
mod `2 ^ 64`) and then injected into the scalar field. -/
def xScalar (x : ℕ) : ZMod p := ((x % 2 ^ 64 : ℕ) : ZMod p)

/-- `Scalar::invert()` returns a `CtOption`: `None` exactly on the zero
scalar, otherwise the field inverse. -/
def invert (a : ZMod p) : Option (ZMod p) :=
  if a = 0 then none else some a⁻¹

/-- The body of `power`'s `while e > 0` loop (`src/sharding.rs`), written
with an explicit fuel so the recursion is structural; `power` passes
`e` itself as fuel, which dominates the loop's iteration count. -/
def powerLoop (fuel : ℕ) (b res : ZMod p) (e : ℕ) : ZMod p :=
  match fuel with
  | 0 => res
  | fuel + 1 =>
    if e = 0 then res
    else powerLoop fuel (b * b) (if e % 2 = 1 then res * b else res) (e / 2)

/-- `power(base, exp)` from `src/sharding.rs`: square-and-multiply. -/
def power (base : ZMod p) (exp : ℕ) : ZMod p :=
  powerLoop p exp base 1 exp

/-- The inner loop of `split_secret`: `y = Σ aᵢ · xⁱ` accumulated over the
enumerated coefficient list (`src/sharding.rs` lines 25-34). -/
def evalPoly (coeffs : List (ZMod p)) (x : ZMod p) : ZMod p :=
  (List.range coeffs.length).foldl
    (fun y i => y + coeffs.getD i 0 * power p x i) 0

/-- `split_secret(secret, threshold, total)` from `src/sharding.rs`.
The `threshold - 1` random coefficients drawn from `OsRng` are exposed as
the explicit stream `rand`.  The function `assert!(threshold <= total)`s;
a failed assertion is a Rust panic, modelled as `none` (the function's
return type `Vec<(usize, Scalar)>` has no error channel). -/
def split_secret (secret : ZMod p) (threshold total : ℕ) (rand : ℕ → ZMod p) :
    Option (List (ℕ × ZMod p)) :=
  if threshold ≤ total then
    let coefficients : List (ZMod p) :=
      secret :: (List.range (threshold - 1)).map rand
    some ((List.range total).map fun i =>
      (i + 1, evalPoly p coefficients (xScalar p (i + 1))))
  else none

/-- Result of `recover_secret`: a scalar, a typed `anyhow` error, or a
Rust panic (the `denominator.invert().unwrap()` on a zero denominator). -/
inductive RResult (p : ℕ) where
  | ok (s : ZMod p)
  | err (msg : String)
  | panicked
deriving DecidableEq

/-- Index (`x_j_idx`) of the `j`-th supplied share. -/
def shIdx (shs : List (ℕ × ZMod p)) (j : ℕ) : ℕ :=
  (shs.getD j (0, 0)).1

/-- Value (`y_j`) of the `j`-th supplied share. -/
def shVal (shs : List (ℕ × ZMod p)) (j : ℕ) : ZMod p :=
  (shs.getD j (0, 0)).2

/-- The `numerator` accumulator of `recover_secret`'s inner loop
(`src/sharding.rs` lines 56-64): `Π_{m ≠ j} x_m`. -/
def lagrangeNum (shs : List (ℕ × ZMod p)) (j : ℕ) : ZMod p :=
  (List.range shs.length).foldl
    (fun acc m => if m = j then acc else acc * xScalar p (shIdx p shs m)) 1

/-- The `denominator` accumulator of the same loop: `Π_{m ≠ j} (x_m - x_j)`. -/
def lagrangeDen (shs : List (ℕ × ZMod p)) (j : ℕ) : ZMod p :=
  (List.range shs.length).foldl
    (fun acc m =>
      if m = j then acc
      else acc * (xScalar p (shIdx p shs m) - xScalar p (shIdx p shs j))) 1

/-- One iteration of `recover_secret`'s outer loop: add
`y_j * (numerator * denominator.invert().unwrap())` to the accumulator;
once the `unwrap` has panicked (`none`) the computation stays dead. -/
def rstep (shs : List (ℕ × ZMod p)) (acc : Option (ZMod p)) (j : ℕ) :
    Option (ZMod p) :=
  match acc with
  | none => none
  | some s =>
    match invert p (lagrangeDen p shs j) with
    | none => none
    | some dinv => some (s + shVal p shs j * (lagrangeNum p shs j * dinv))

/-- `recover_secret(shares)` from `src/sharding.rs`: Lagrange interpolation
at `x = 0`; empty input is a typed error, a zero denominator is a panic. -/
def recover_secret (shs : List (ℕ × ZMod p)) : RResult p :=
  if shs.isEmpty then RResult.err "No shares provided"
  else
    match (List.range shs.length).foldl (rstep p shs) (some 0) with
    | some s => RResult.ok s
    | none => RResult.panicked

end FieldDefs

/-! ### Proactive share refresh (`src/pss.rs`) -/

/-- The scalar core of `refresh_secp256k1` (`src/pss.rs` lines 28-53):
given the two deserialized custody shares and the sampled blinding scalar
`alpha`, return `(s_dao + alpha, s_tee - alpha)`. -/
def refresh_secp256k1 (s_dao s_tee alpha : ZMod secpOrder) :
    ZMod secpOrder × ZMod secpOrder :=
  (s_dao + alpha, s_tee - alpha)

/-! ### Scalar decoding (`src/scalar_utils.rs`) -/

/-- Big-endian interpretation of a byte list, as `Scalar::from_repr` does
on a 32-byte `FieldBytes`. -/
def beBytesToNat (l : List ℕ) : ℕ :=
  l.foldl (fun acc b => acc * 256 + b) 0

/-- Result of `bytes_to_scalar`: a scalar, a typed `anyhow` error, or a
Rust panic (`FieldBytes::from_slice` asserts its argument is exactly
32 bytes long). -/
inductive BResult where
  | ok (s : ZMod secpOrder)
  | err (msg : String)
  | panicked
deriving DecidableEq

/-- `bytes_to_scalar(bytes)` from `src/scalar_utils.rs`:
`resize(32, 0)` when the buffer is longer than 32 bytes (which then only
truncates), reverse the byte order, then `Scalar::from_repr` on the
resulting big-endian 32-byte array — which requires exactly 32 bytes
(panic otherwise) and rejects values `≥ secpOrder`. -/
def bytes_to_scalar (bytes : List ℕ) : BResult :=
  let key_bytes := if 32 < bytes.length then bytes.take 32 else bytes
  let reversed := key_bytes.reverse
  if reversed.length = 32 then
    if beBytesToNat reversed < secpOrder then
      BResult.ok ((beBytesToNat reversed : ℕ) : ZMod secpOrder)
    else BResult.err "Invalid scalar encoding"
  else BResult.panicked

/-- Modelled from the spec: the codec's `encode` ("always emits the full
canonical fixed-width big-endian form", 32 bytes).  The repository uses
the curve library's `to_bytes` for this; no encoder lives under `src/`.
`natToBEBytes w v` is the `w`-byte big-endian encoding of `v`. -/
def natToBEBytes : ℕ → ℕ → List ℕ
  | 0, _ => []
  | w + 1, v => natToBEBytes w (v / 256) ++ [v % 256]

/-- Modelled from the spec: `encode(x)` = canonical 32-byte big-endian
representation of the scalar `x`. -/
def encode (x : ZMod secpOrder) : List ℕ :=
  natToBEBytes 32 x.val

/-! ### Quorum verification (`src/dao.rs`)

The actual ECDSA primitives (`hex::decode`, `VerifyingKey::from_sec1_bytes`,
`Signature::from_slice`, `verify`) are external library calls; they are
abstracted as an oracle record, with `K` the type of parsed public keys
and `S` the type of parsed signatures. -/

structure SigCtx (K S : Type) where
  hexDecode : String → Except String (List ℕ)
  keyFromSec1 : List ℕ → Except String K
  sigFromSlice : List ℕ → Except String S
  verifyOk : K → List ℕ → S → Bool

/-- `Member` from `src/dao.rs`. -/
structure Member where
  name : String
  pubkey_hex : String
  privkey_hex : String
deriving DecidableEq

/-- `DaoGroup` from `src/dao.rs`. -/
structure DaoGroup where
  threshold : ℕ
  members : List Member
deriving DecidableEq

/-- `self.members.iter().find(|m| &m.name == member_name)`. -/
def findMember (g : DaoGroup) (member_name : String) : Option Member :=
  g.members.find? fun m => m.name == member_name

section DaoDefs

variable {K S : Type}

/-- One iteration of `verify_proposal`'s loop (`src/dao.rs` lines 60-76):
an unmatched name contributes 0 votes; a decode failure propagates (the
source uses `?` / `map_err(..)?`); a verified signature contributes 1,
an unverified one 0 (with only a warning printed). -/
def entryVote (ctx : SigCtx K S) (g : DaoGroup) (message : List ℕ)
    (member_name sig_hex : String) : Except String ℕ :=
  match findMember g member_name with
  | none => Except.ok 0
  | some member =>
    match ctx.hexDecode member.pubkey_hex with
    | Except.error e => Except.error e
    | Except.ok pub_bytes =>
      match ctx.keyFromSec1 pub_bytes with
      | Except.error e =>
        Except.error ("Invalid pubkey for " ++ member_name ++ ": " ++ e)
      | Except.ok verifying_key =>
        match ctx.hexDecode sig_hex with
        | Except.error e => Except.error e
        | Except.ok sig_bytes =>
          match ctx.sigFromSlice sig_bytes with
          | Except.error e => Except.error ("Invalid signature format: " ++ e)
          | Except.ok signature =>
            Except.ok (if ctx.verifyOk verifying_key message signature then 1 else 0)

/-- Folding step of `verify_proposal`: accumulate `valid_votes`, stopping
at the first propagated error. -/
def vstep (ctx : SigCtx K S) (g : DaoGroup) (message : List ℕ)
    (acc : Except String ℕ) (e : String × String) : Except String ℕ :=
  match acc with
  | Except.error m => Except.error m
  | Except.ok votes =>
    match entryVote ctx g message e.1 e.2 with
    | Except.error m => Except.error m
    | Except.ok dv => Except.ok (votes + dv)

/-- `DaoGroup::verify_proposal` from `src/dao.rs`: iterate the endorsement
map (modelled as an association list), count valid votes, and return
`valid_votes >= self.threshold`. -/
def verify_proposal (ctx : SigCtx K S) (g : DaoGroup) (message : List ℕ)
    (sigs : List (String × String)) : Except String Bool :=
  match sigs.foldl (vstep ctx g message) (Except.ok 0) with
  | Except.error m => Except.error m
  | Except.ok votes => Except.ok (decide (g.threshold ≤ votes))

/-- `true` exactly for an endorsement entry that names a roster member,
whose key and signature decode, and whose signature verifies. -/
def entryValid (ctx : SigCtx K S) (g : DaoGroup) (message : List ℕ)
    (e : String × String) : Bool :=
  match entryVote ctx g message e.1 e.2 with
  | Except.ok 1 => true
  | _ => false

/-- Whether an `Except` is an `ok`. -/
def exceptOk {ε α : Type} : Except ε α → Bool
  | Except.ok _ => true
  | Except.error _ => false

end DaoDefs

/-- A 1-member roster with threshold 1, used to instantiate the quorum
theorems on concrete inputs. -/
def rosterW : DaoGroup :=
  { threshold := 1, members := [{ name := "a", pubkey_hex := "pk", privkey_hex := "sk" }] }

/-- An oracle whose decoders always succeed and whose verifier accepts. -/
def ctxAllOk : SigCtx Unit Unit :=
  { hexDecode := fun _ => Except.ok []
    keyFromSec1 := fun _ => Except.ok ()
    sigFromSlice := fun _ => Except.ok ()
    verifyOk := fun _ _ _ => true }

/-- An oracle whose hex decoder always fails, as `hex::decode` does on
malformed hex. -/
def ctxBadHex : SigCtx Unit Unit :=
  { hexDecode := fun _ => Except.error "Odd number of digits"
    keyFromSec1 := fun _ => Except.ok ()
    sigFromSlice := fun _ => Except.ok ()
    verifyOk := fun _ _ _ => true }

instance : Fact (Nat.Prime 7) := ⟨by norm_num⟩

instance : Fact (Nat.Prime 11) := ⟨by norm_num⟩

/-! ## Generic fold lemmas -/

theorem list_range_map_sum {M : Type} [AddCommMonoid M] (f : ℕ → M) (n : ℕ) :
    ((List.range n).map f).sum = ∑ i ∈ Finset.range n, f i := by
  induction n with
  | zero => simp
  | succ n ih => simp [List.range_succ, Finset.sum_range_succ, ih]

theorem foldl_mul_skip {M : Type} [CommMonoid M] (g : ℕ → M) (j : ℕ) :
    ∀ (n : ℕ) (a : M),
      (List.range n).foldl (fun acc m => if m = j then acc else acc * g m) a
        = a * ∏ m ∈ Finset.range n, (if m = j then 1 else g m) := by
  intro n
  induction n with
  | zero => intro a; simp
  | succ n ih =>
    intro a
    rw [List.range_succ, List.foldl_append, ih, Finset.prod_range_succ]
    by_cases h : n = j
    · simp [h, mul_assoc]
    · simp [h, mul_assoc]

theorem prod_ite_one_erase {M : Type} [CommMonoid M] (g : ℕ → M) (s : Finset ℕ)
    (j : ℕ) :
    (∏ m ∈ s, (if m = j then 1 else g m)) = ∏ m ∈ s.erase j, g m := by
  by_cases hj : j ∈ s
  · rw [← Finset.mul_prod_erase s _ hj, if_pos rfl, one_mul]
    exact Finset.prod_congr rfl fun m hm => if_neg (Finset.mem_erase.mp hm).1
  · rw [Finset.erase_eq_of_not_mem hj]
    exact Finset.prod_congr rfl fun m hm => if_neg fun (h : m = j) => hj (h ▸ hm)

/-! ## The interpolation loop as finite products and sums -/

theorem lagrangeNum_eq (p : ℕ) (shs : List (ℕ × ZMod p)) (j : ℕ) :
    lagrangeNum p shs j
      = ∏ m ∈ (Finset.range shs.length).erase j, xScalar p (shIdx p shs m) := by
  have h := foldl_mul_skip (fun m => xScalar p (shIdx p shs m)) j shs.length 1
  simp only [one_mul] at h
  unfold lagrangeNum
  rw [h, prod_ite_one_erase]

theorem lagrangeDen_eq (p : ℕ) (shs : List (ℕ × ZMod p)) (j : ℕ) :
    lagrangeDen p shs j
      = ∏ m ∈ (Finset.range shs.length).erase j,
          (xScalar p (shIdx p shs m) - xScalar p (shIdx p shs j)) := by
  have h := foldl_mul_skip
    (fun m => xScalar p (shIdx p shs m) - xScalar p (shIdx p shs j)) j shs.length 1
  simp only [one_mul] at h
  unfold lagrangeDen
  rw [h, prod_ite_one_erase]

theorem foldl_rstep_none (p : ℕ) (shs : List (ℕ × ZMod p)) (l : List ℕ) :
    l.foldl (rstep p shs) none = none := by
  induction l with
  | nil => rfl
  | cons j l ih => simpa [rstep] using ih

theorem foldl_rstep_some (p : ℕ) (shs : List (ℕ × ZMod p)) :
    ∀ (l : List ℕ), (∀ j ∈ l, lagrangeDen p shs j ≠ 0) → ∀ (a : ZMod p),
      l.foldl (rstep p shs) (some a)
        = some (a + (l.map fun j =>
            shVal p shs j * (lagrangeNum p shs j * (lagrangeDen p shs j)⁻¹)).sum) := by
  intro l
  induction l with
  | nil => intro _ a; simp
  | cons j l ih =>
    intro h a
    have hj : lagrangeDen p shs j ≠ 0 := h j (List.mem_cons_self j l)
    have hstep : rstep p shs (some a) j
        = some (a + shVal p shs j * (lagrangeNum p shs j * (lagrangeDen p shs j)⁻¹)) := by
      simp [rstep, invert, hj]
    rw [List.foldl_cons, hstep, ih (fun m hm => h m (List.mem_cons_of_mem _ hm))]
    simp [add_assoc]

theorem foldl_rstep_zero (p : ℕ) (shs : List (ℕ × ZMod p)) :
    ∀ (l : List ℕ), (∃ j ∈ l, lagrangeDen p shs j = 0) → ∀ (acc : Option (ZMod p)),
      l.foldl (rstep p shs) acc = none := by
  intro l
  induction l with
  | nil => rintro ⟨j, hj, -⟩; exact absurd hj (List.not_mem_nil j)
  | cons j l ih =>
    rintro ⟨m, hm, hden⟩ acc
    rw [List.foldl_cons]
    rcases List.mem_cons.mp hm with rfl | hm'
    · have hz : rstep p shs acc m = none := by
        cases acc with
        | none => rfl
        | some s => simp [rstep, invert, hden]
      rw [hz, foldl_rstep_none]
    · exact ih ⟨m, hm', hden⟩ _

theorem recover_secret_sum (p : ℕ) (shs : List (ℕ × ZMod p)) (hne : shs ≠ [])
    (hden : ∀ j ∈ List.range shs.length, lagrangeDen p shs j ≠ 0) :
    recover_secret p shs
      = RResult.ok (∑ j ∈ Finset.range shs.length,
          shVal p shs j * (lagrangeNum p shs j * (lagrangeDen p shs j)⁻¹)) := by
  unfold recover_secret
  rw [if_neg (by simpa using hne), foldl_rstep_some p shs _ hden 0,
    list_range_map_sum, zero_add]

theorem recover_secret_panics_of_zero_den (p : ℕ) (shs : List (ℕ × ZMod p))
    (hne : shs ≠ []) (hzero : ∃ j ∈ List.range shs.length, lagrangeDen p shs j = 0) :
    recover_secret p shs = RResult.panicked := by
  unfold recover_secret
  rw [if_neg (by simpa using hne), foldl_rstep_zero p shs _ hzero]

/-! ## Recovery computes the Lagrange interpolation at zero -/

theorem recover_secret_eq_interpolate (p : ℕ) [Fact p.Prime]
    (shs : List (ℕ × ZMod p)) (hne : shs ≠ [])
    (hinj : Set.InjOn (fun j => xScalar p (shIdx p shs j))
      ↑(Finset.range shs.length)) :
    recover_secret p shs
      = RResult.ok ((Lagrange.interpolate (Finset.range shs.length)
          (fun j => xScalar p (shIdx p shs j))
          (fun j => shVal p shs j)).eval 0) := by
  have hden : ∀ j ∈ List.range shs.length, lagrangeDen p shs j ≠ 0 := by
    intro j hj
    rw [List.mem_range] at hj
    rw [lagrangeDen_eq, Finset.prod_ne_zero_iff]
    intro m hm
    rcases Finset.mem_erase.mp hm with ⟨hmj, hmr⟩
    refine sub_ne_zero_of_ne fun h => hmj ?_
    exact hinj (by simpa using Finset.mem_range.mp hmr) (by simpa using hj) h
  rw [recover_secret_sum p shs hne hden]
  congr 1
  rw [Lagrange.interpolate_apply, Polynomial.eval_finset_sum]
  refine Finset.sum_congr rfl fun j hj => ?_
  rw [Polynomial.eval_mul, Polynomial.eval_C]
  congr 1
  rw [Lagrange.basis, Polynomial.eval_prod, lagrangeNum_eq, lagrangeDen_eq,
    ← Finset.prod_inv_distrib, ← Finset.prod_mul_distrib]
  refine Finset.prod_congr rfl fun m hm => ?_
  rw [Lagrange.basisDivisor, Polynomial.eval_mul, Polynomial.eval_C,
    Polynomial.eval_sub, Polynomial.eval_X, Polynomial.eval_C, zero_sub,
    ← neg_sub (xScalar p (shIdx p shs m)) (xScalar p (shIdx p shs j)), inv_neg,
    neg_mul_neg, mul_comm]

/-! ## Share indices with distinct `usize` values are distinct field nodes -/

theorem xScalar_injOn (p : ℕ) [NeZero p] (shs : List (ℕ × ZMod p))
    (hidx : ∀ e ∈ shs, e.1 < 2 ^ 64 ∧ e.1 < p)
    (hnd : (shs.map Prod.fst).Nodup) :
    Set.InjOn (fun j => xScalar p (shIdx p shs j)) ↑(Finset.range shs.length) := by
  intro i hi j hj hij
  simp only [Finset.coe_range, Set.mem_Iio] at hi hj
  have e1 : shIdx p shs i = shs[i].1 := by
    unfold shIdx; rw [List.getD_eq_getElem shs (0, 0) hi]
  have e2 : shIdx p shs j = shs[j].1 := by
    unfold shIdx; rw [List.getD_eq_getElem shs (0, 0) hj]
  have m1 := hidx shs[i] (List.getElem_mem hi)
  have m2 := hidx shs[j] (List.getElem_mem hj)
  simp only [e1, e2, xScalar] at hij
  rw [Nat.mod_eq_of_lt m1.1, Nat.mod_eq_of_lt m2.1] at hij
  have hnat : shs[i].1 = shs[j].1 := by
    have hv := congrArg ZMod.val hij
    rwa [ZMod.val_cast_of_lt m1.2, ZMod.val_cast_of_lt m2.2] at hv
  have hlenm : (shs.map Prod.fst).length = shs.length := List.length_map _ _
  have hm : (shs.map Prod.fst).get ⟨i, by omega⟩ = (shs.map Prod.fst).get ⟨j, by omega⟩ := by
    simp only [List.get_eq_getElem, List.getElem_map]
    exact hnat
  have := (List.Nodup.get_inj_iff hnd).mp hm
  simpa using this

/-! ## `power` computes exponentiation -/

theorem powerLoop_eq (p : ℕ) :
    ∀ (fuel : ℕ) (b res : ZMod p) (e : ℕ), e ≤ fuel →
      powerLoop p fuel b res e = res * b ^ e := by
  intro fuel
  induction fuel with
  | zero =>
    intro b res e he
    have : e = 0 := by omega
    subst this
    simp [powerLoop]
  | succ fuel ih =>
    intro b res e he
    by_cases h0 : e = 0
    · subst h0; simp [powerLoop]
    · rw [powerLoop]
      rw [if_neg h0, ih (b * b) _ (e / 2) (by omega)]
      rcases Nat.mod_two_eq_zero_or_one e with h2 | h2
      · obtain ⟨k, hk⟩ : ∃ k, e = 2 * k := ⟨e / 2, by omega⟩
        subst hk
        have hdiv : 2 * k / 2 = k := by omega
        rw [if_neg (by omega), hdiv]
        ring
      · obtain ⟨k, hk⟩ : ∃ k, e = 2 * k + 1 := ⟨e / 2, by omega⟩
        subst hk
        have hdiv : (2 * k + 1) / 2 = k := by omega
        rw [if_pos (by omega), hdiv]
        ring

theorem power_eq_pow (p : ℕ) (b : ZMod p) (e : ℕ) : power p b e = b ^ e := by
  unfold power
  rw [powerLoop_eq p e b 1 e le_rfl, one_mul]

/-! ## Polynomial evaluation in `split_secret` -/

theorem foldl_add_range {M : Type} [AddCommMonoid M] (f : ℕ → M) :
    ∀ (n : ℕ) (a : M),
      (List.range n).foldl (fun y i => y + f i) a = a + ∑ i ∈ Finset.range n, f i := by
  intro n
  induction n with
  | zero => intro a; simp
  | succ n ih =>
    intro a
    rw [List.range_succ, List.foldl_append, ih, Finset.sum_range_succ]
    simp [add_assoc]

theorem evalPoly_eq_sum (p : ℕ) (coeffs : List (ZMod p)) (x : ZMod p) :
    evalPoly p coeffs x
      = ∑ i ∈ Finset.range coeffs.length, coeffs.getD i 0 * x ^ i := by
  have h := foldl_add_range (fun i => coeffs.getD i 0 * power p x i) coeffs.length 0
  simp only [power_eq_pow] at h
  unfold evalPoly
  simp only [power_eq_pow]
  rw [h, zero_add]

theorem evalPoly_eq_polyEval (p : ℕ) (coeffs : List (ZMod p)) (x : ZMod p) :
    evalPoly p coeffs x
      = Polynomial.eval x (∑ i ∈ Finset.range coeffs.length,
          Polynomial.C (coeffs.getD i 0) * Polynomial.X ^ i) := by
  rw [evalPoly_eq_sum, Polynomial.eval_finset_sum]
  exact Finset.sum_congr rfl fun i _ => by
    rw [Polynomial.eval_mul, Polynomial.eval_C, Polynomial.eval_pow, Polynomial.eval_X]

theorem degree_coeffsPoly_lt (p : ℕ) (coeffs : List (ZMod p)) :
    (∑ i ∈ Finset.range coeffs.length,
        Polynomial.C (coeffs.getD i 0) * Polynomial.X ^ i).degree
      < (coeffs.length : WithBot ℕ) := by
  refine lt_of_le_of_lt (Polynomial.degree_sum_le _ _) ?_
  rw [Finset.sup_lt_iff (WithBot.bot_lt_coe _)]
  intro i hi
  refine lt_of_le_of_lt (Polynomial.degree_C_mul_X_pow_le i _) ?_
  exact_mod_cast Finset.mem_range.mp hi

theorem eval_zero_coeffsPoly (p : ℕ) (coeffs : List (ZMod p))
    (h : 0 < coeffs.length) :
    Polynomial.eval 0 (∑ i ∈ Finset.range coeffs.length,
        Polynomial.C (coeffs.getD i 0) * Polynomial.X ^ i)
      = coeffs.getD 0 0 := by
  rw [Polynomial.eval_finset_sum, Finset.sum_eq_single 0]
  · simp
  · intro i _ hne
    simp [zero_pow hne]
  · intro h0
    exact absurd (Finset.mem_range.mpr h) h0

theorem split_secret_eq_some (p : ℕ) (secret : ZMod p) (threshold total : ℕ)
    (rand : ℕ → ZMod p) (h : threshold ≤ total) :
    split_secret p secret threshold total rand
      = some ((List.range total).map fun i =>
          (i + 1, evalPoly p (secret :: (List.range (threshold - 1)).map rand)
            (xScalar p (i + 1)))) := by
  unfold split_secret
  rw [if_pos h]

/-! ## Claim theorems -/

/-- C1: for every secret `s`, every `1 ≤ threshold ≤ total` (with `total`
in `usize` range and below the field order, as it always is for the
program's 256-bit modulus), and every choice of the random polynomial
coefficients, `recover_secret` applied to any `threshold`-element subset
of the shares produced by `split_secret` returns exactly `s`.  Stated
over an arbitrary prime modulus; the program instantiates `p = secpOrder`,
which is prime. -/
theorem split_recover_roundtrip (p : ℕ) [Fact p.Prime]
    (secret : ZMod p) (threshold total : ℕ) (rand : ℕ → ZMod p)
    (h1 : 1 ≤ threshold) (h2 : threshold ≤ total)
    (h64 : total < 2 ^ 64) (hp : total < p)
    (shares sub : List (ℕ × ZMod p))
    (hsplit : split_secret p secret threshold total rand = some shares)
    (hsub : ∀ e ∈ sub, e ∈ shares)
    (hnd : (sub.map Prod.fst).Nodup)
    (hlen : sub.length = threshold) :
    recover_secret p sub = RResult.ok secret := by
  haveI : NeZero p := ⟨(Fact.out : p.Prime).ne_zero⟩
  rw [split_secret_eq_some p secret threshold total rand h2] at hsplit
  simp only [Option.some.injEq] at hsplit
  subst hsplit
  set coeffs : List (ZMod p) := secret :: (List.range (threshold - 1)).map rand with hc
  have hmem : ∀ e ∈ sub, ∃ i, i < total ∧
      e = (i + 1, evalPoly p coeffs (xScalar p (i + 1))) := by
    intro e he
    have hh := hsub e he
    simp only [List.mem_map, List.mem_range] at hh
    obtain ⟨i, hi, hei⟩ := hh
    exact ⟨i, hi, hei.symm⟩
  have hidx : ∀ e ∈ sub, e.1 < 2 ^ 64 ∧ e.1 < p := by
    intro e he
    obtain ⟨i, hi, rfl⟩ := hmem e he
    exact ⟨by omega, by omega⟩
  have hne : sub ≠ [] := by
    intro h
    rw [h] at hlen
    simp at hlen
    omega
  rw [recover_secret_eq_interpolate p sub hne (xScalar_injOn p sub hidx hnd)]
  congr 1
  have hcl : coeffs.length = threshold := by
    simp [hc]
    omega
  have hval : ∀ j ∈ Finset.range sub.length,
      Polynomial.eval ((fun j => xScalar p (shIdx p sub j)) j)
        (∑ i ∈ Finset.range coeffs.length,
          Polynomial.C (coeffs.getD i 0) * Polynomial.X ^ i)
        = (fun j => shVal p sub j) j := by
    intro j hj
    have hjlen := Finset.mem_range.mp hj
    have hgd : sub.getD j (0, 0) = sub[j] := List.getD_eq_getElem sub (0, 0) hjlen
    obtain ⟨i, hi, he⟩ := hmem sub[j] (List.getElem_mem hjlen)
    show Polynomial.eval (xScalar p (shIdx p sub j)) _ = shVal p sub j
    unfold shIdx shVal
    rw [hgd, he]
    exact (evalPoly_eq_polyEval p coeffs _).symm
  have hinterp :
      (∑ i ∈ Finset.range coeffs.length,
          Polynomial.C (coeffs.getD i 0) * Polynomial.X ^ i)
        = Lagrange.interpolate (Finset.range sub.length)
            (fun j => xScalar p (shIdx p sub j)) (fun j => shVal p sub j) := by
    refine Lagrange.eq_interpolate_of_eval_eq _ (xScalar_injOn p sub hidx hnd) ?_ hval
    rw [Finset.card_range, hlen, ← hcl]
    exact degree_coeffsPoly_lt p coeffs
  rw [← hinterp, eval_zero_coeffsPoly p coeffs (by omega)]
  simp [hc]

/-- Witness for C1: secret `5` over `ZMod 11`, polynomial `5 + 3·x`
(threshold 2, total 3); the subset of shares with indices 1 and 3
recovers `5`. -/
theorem split_recover_roundtrip_witness :
    recover_secret 11 ([(1, 8), (3, 3)] : List (ℕ × ZMod 11)) = RResult.ok 5 := by
  have hsplit : split_secret 11 5 2 3 (fun _ => 3)
      = some ([(1, 8), (2, 0), (3, 3)] : List (ℕ × ZMod 11)) := by decide
  have hsub : ∀ e ∈ ([(1, 8), (3, 3)] : List (ℕ × ZMod 11)),
      e ∈ ([(1, 8), (2, 0), (3, 3)] : List (ℕ × ZMod 11)) := by decide
  have hnd : (([(1, 8), (3, 3)] : List (ℕ × ZMod 11)).map Prod.fst).Nodup := by
    decide
  have hlen : ([(1, 8), (3, 3)] : List (ℕ × ZMod 11)).length = 2 := by decide
  exact split_recover_roundtrip 11 5 2 3 (fun _ => 3) (by norm_num) (by norm_num)
    (by norm_num) (by norm_num) _ _ hsplit hsub hnd hlen

/-- C9: for every non-empty share list whose (`usize`) indices are
pairwise distinct, `recover_secret` succeeds — regardless of any
threshold — and returns the value at `0` of the Lagrange interpolation
through the supplied points. -/
theorem recover_secret_distinct_ok (p : ℕ) [Fact p.Prime]
    (shs : List (ℕ × ZMod p)) (hne : shs ≠ [])
    (hidx : ∀ e ∈ shs, e.1 < 2 ^ 64 ∧ e.1 < p)
    (hnd : (shs.map Prod.fst).Nodup) :
    recover_secret p shs
      = RResult.ok ((Lagrange.interpolate (Finset.range shs.length)
          (fun j => xScalar p (shIdx p shs j))
          (fun j => shVal p shs j)).eval 0) := by
  haveI : NeZero p := ⟨(Fact.out : p.Prime).ne_zero⟩
  exact recover_secret_eq_interpolate p shs hne (xScalar_injOn p shs hidx hnd)

/-- Witness for C9: two shares with distinct indices over `ZMod 7`
(fewer than any plausible threshold) still produce an `ok` result. -/
theorem recover_secret_distinct_ok_witness :
    recover_secret 7 ([(1, 2), (2, 5)] : List (ℕ × ZMod 7))
      = RResult.ok ((Lagrange.interpolate
          (Finset.range ([(1, 2), (2, 5)] : List (ℕ × ZMod 7)).length)
          (fun j => xScalar 7 (shIdx 7 ([(1, 2), (2, 5)] : List (ℕ × ZMod 7)) j))
          (fun j => shVal 7 ([(1, 2), (2, 5)] : List (ℕ × ZMod 7)) j)).eval 0) :=
  recover_secret_distinct_ok 7 ([(1, 2), (2, 5)] : List (ℕ × ZMod 7))
    (by decide) (by decide) (by decide)

/-- C2 counterexample: on two shares with the duplicated index 1 the
program does not return a typed error — `denominator.invert().unwrap()`
panics (the denominators are zero). -/
theorem recover_secret_duplicate_concrete :
    recover_secret secpOrder [(1, 0), (1, 0)] = RResult.panicked := by decide

/-- C2 amended: on any share list containing two shares with the same
index, `recover_secret` panics at the `unwrap` of the zero denominator's
inverse (a crash, not a returned `DuplicateOrDegenerateShareIndex`
failure), and returns no scalar. -/
theorem recover_secret_duplicate_panics (p : ℕ) (shs : List (ℕ × ZMod p))
    (i j : ℕ) (hi : i < shs.length) (hj : j < shs.length) (hij : i ≠ j)
    (hdup : shIdx p shs i = shIdx p shs j) :
    recover_secret p shs = RResult.panicked := by
  have hne : shs ≠ [] := by
    intro h
    rw [h] at hi
    simp at hi
  have hden : lagrangeDen p shs i = 0 := by
    rw [lagrangeDen_eq]
    refine Finset.prod_eq_zero (i := j) ?_ ?_
    · exact Finset.mem_erase.mpr ⟨Ne.symm hij, Finset.mem_range.mpr hj⟩
    · rw [hdup, sub_self]
  exact recover_secret_panics_of_zero_den p shs hne
    ⟨i, List.mem_range.mpr hi, hden⟩

/-- Witness for the amended C2. -/
theorem recover_secret_duplicate_panics_witness :
    recover_secret 7 [(1, 2), (1, 3)] = RResult.panicked :=
  recover_secret_duplicate_panics 7 [(1, 2), (1, 3)] 0 1 (by decide) (by decide)
    (by decide) (by decide)

/-- C4: the proactive-refresh pair `(s_dao + α, s_tee − α)` preserves the
sum of the two custody shares in the scalar field, for every share pair
and every sampled blinding scalar. -/
theorem refresh_preserves_sum (s_dao s_tee alpha : ZMod secpOrder) :
    (refresh_secp256k1 s_dao s_tee alpha).1
        + (refresh_secp256k1 s_dao s_tee alpha).2
      = s_dao + s_tee := by
  unfold refresh_secp256k1
  ring

/-- C5 counterexample: with `threshold = 2 > total = 1` the split does
not surface a typed `PreconditionViolation` to the caller — the
`assert!(threshold <= total)` panics (`none`); the return type
`Vec<(usize, Scalar)>` has no error channel at all. -/
theorem split_secret_assert_concrete :
    split_secret secpOrder 0 2 1 (fun _ => 0) = none := rfl

/-- C5 amended: `split_secret` fails only when `threshold > total`, but
by a panicking assertion rather than a returned typed error: the result
is `none` (assertion failure) exactly when `total < threshold`, and
otherwise the full share list is produced. -/
theorem split_secret_none_iff (p : ℕ) (secret : ZMod p)
    (threshold total : ℕ) (rand : ℕ → ZMod p) :
    split_secret p secret threshold total rand = none ↔ total < threshold := by
  unfold split_secret
  by_cases h : threshold ≤ total
  · simp [h, Nat.not_lt.mpr h]
  · simp [h, Nat.lt_of_not_le h]

/-- C10: `recover_secret` on an empty share list returns the typed error
`"No shares provided"` — it neither panics nor returns a scalar. -/
theorem recover_secret_empty (p : ℕ) :
    recover_secret p [] = RResult.err "No shares provided" := rfl

/-! ## Scalar codec (C7, C8) -/

theorem length_natToBEBytes (w : ℕ) : ∀ v, (natToBEBytes w v).length = w := by
  induction w with
  | zero => intro v; rfl
  | succ w ih => intro v; simp [natToBEBytes, ih]

theorem beBytesToNat_append (l : List ℕ) (b : ℕ) :
    beBytesToNat (l ++ [b]) = beBytesToNat l * 256 + b := by
  unfold beBytesToNat
  rw [List.foldl_append]
  rfl

theorem beBytesToNat_natToBEBytes (w : ℕ) :
    ∀ v, v < 256 ^ w → beBytesToNat (natToBEBytes w v) = v := by
  induction w with
  | zero =>
    intro v hv
    have : v = 0 := by simpa using hv
    subst this
    rfl
  | succ w ih =>
    intro v hv
    have hdiv : v / 256 < 256 ^ w := by
      rw [Nat.div_lt_iff_lt_mul (by norm_num)]
      calc v < 256 ^ (w + 1) := hv
      _ = 256 ^ w * 256 := by ring
    rw [natToBEBytes, beBytesToNat_append, ih _ hdiv]
    omega

theorem secpOrder_lt_pow : secpOrder < 256 ^ 32 := by norm_num [secpOrder]

/-- C7 counterexample: an empty byte buffer is not handled totally — the
decode crashes (`FieldBytes::from_slice` length assertion) instead of
padding to the canonical width. -/
theorem bytes_to_scalar_nil_panics : bytes_to_scalar [] = BResult.panicked := rfl

/-- C7 amended: the decode truncates buffers longer than 32 bytes and,
for every buffer of at least 32 bytes, returns the decoded scalar or the
typed error `"Invalid scalar encoding"` exactly when the (byte-reversed)
value is `≥ secpOrder`; buffers shorter than 32 bytes are not padded but
panic (`FieldBytes::from_slice` asserts exactly 32 bytes). -/
theorem bytes_to_scalar_spec (bytes : List ℕ) :
    bytes_to_scalar bytes =
      if 32 ≤ bytes.length then
        (if beBytesToNat (bytes.take 32).reverse < secpOrder
         then BResult.ok ((beBytesToNat (bytes.take 32).reverse : ℕ) : ZMod secpOrder)
         else BResult.err "Invalid scalar encoding")
      else BResult.panicked := by
  rcases Nat.lt_trichotomy bytes.length 32 with h | h | h
  · have h1 : ¬ 32 < bytes.length := by omega
    have h2 : ¬ 32 ≤ bytes.length := by omega
    have h3 : ¬ bytes.reverse.length = 32 := by
      rw [List.length_reverse]; omega
    simp only [bytes_to_scalar, if_neg h1, if_neg h2, if_neg h3]
  · have h1 : ¬ 32 < bytes.length := by omega
    have h2 : 32 ≤ bytes.length := by omega
    have h3 : bytes.reverse.length = 32 := by rw [List.length_reverse]; omega
    have h4 : bytes.take 32 = bytes := List.take_of_length_le (by omega)
    simp [bytes_to_scalar, h1, h2, h3, h4]
  · have h1 : 32 < bytes.length := h
    have h2 : 32 ≤ bytes.length := by omega
    have h3 : (bytes.take 32).reverse.length = 32 := by
      rw [List.length_reverse, List.length_take]; omega
    simp [bytes_to_scalar, h1, h2, h3]

/-- C8 counterexample: decoding the canonical 32-byte big-endian
representation of the scalar `1` does not return `1` (the decoder reverses
bytes, so it returns `2 ^ 248`): the round trip `decode ∘ encode` fails. -/
theorem bytes_to_scalar_encode_one_ne :
    bytes_to_scalar (encode (1 : ZMod secpOrder)) ≠ BResult.ok 1 := by decide

/-- C8 amended: the decoder inverts the byte-*reversed* (little-endian)
form of the canonical encoding: for every scalar `x`,
`bytes_to_scalar ((encode x).reverse) = ok x`, matching the documented
little-endian adapter policy; `decode (encode x)` itself is not `x` in
general. -/
theorem bytes_to_scalar_reverse_encode (x : ZMod secpOrder) :
    bytes_to_scalar (encode x).reverse = BResult.ok x := by
  have hxlt : x.val < secpOrder := ZMod.val_lt x
  have hlen : (encode x).length = 32 := length_natToBEBytes 32 x.val
  have hval : beBytesToNat (encode x) = x.val := by
    rw [encode]
    exact beBytesToNat_natToBEBytes 32 x.val (lt_trans hxlt secpOrder_lt_pow)
  have h1 : ¬ 32 < (encode x).reverse.length := by
    rw [List.length_reverse, hlen]
    omega
  have h3 : (encode x).reverse.reverse.length = 32 := by
    rw [List.reverse_reverse, hlen]
  simp only [bytes_to_scalar, if_neg h1, List.reverse_reverse, hlen, hval,
    if_pos hxlt]
  simp [ZMod.natCast_rightInverse x]

/-! ## Quorum verification (C3, C6) -/

theorem entryVote_cases {K S : Type} (ctx : SigCtx K S) (g : DaoGroup)
    (message : List ℕ) (n s : String) :
    entryVote ctx g message n s = Except.ok 0
      ∨ entryVote ctx g message n s = Except.ok 1
      ∨ ∃ m, entryVote ctx g message n s = Except.error m := by
  unfold entryVote
  cases hfm : findMember g n with
  | none => simp
  | some member =>
    cases hpd : ctx.hexDecode member.pubkey_hex with
    | error e => simp [hfm, hpd]
    | ok pub_bytes =>
      cases hk : ctx.keyFromSec1 pub_bytes with
      | error e => simp [hfm, hpd, hk]
      | ok vk =>
        cases hsd : ctx.hexDecode s with
        | error e => simp [hfm, hpd, hk, hsd]
        | ok sig_bytes =>
          cases hsp : ctx.sigFromSlice sig_bytes with
          | error e => simp [hfm, hpd, hk, hsd, hsp]
          | ok sg =>
            by_cases hv : ctx.verifyOk vk message sg
            · simp [hfm, hpd, hk, hsd, hsp, hv]
            · simp [hfm, hpd, hk, hsd, hsp, hv]

theorem foldl_vstep_error {K S : Type} (ctx : SigCtx K S) (g : DaoGroup)
    (message : List ℕ) :
    ∀ (sigs : List (String × String)) (m : String),
      sigs.foldl (vstep ctx g message) (Except.error m) = Except.error m := by
  intro sigs
  induction sigs with
  | nil => intro m; rfl
  | cons e l ih => intro m; simpa [vstep] using ih m

theorem foldl_vstep_ok {K S : Type} (ctx : SigCtx K S) (g : DaoGroup)
    (message : List ℕ) :
    ∀ (sigs : List (String × String)),
      (∀ e ∈ sigs, exceptOk (entryVote ctx g message e.1 e.2) = true) →
      ∀ acc : ℕ,
        sigs.foldl (vstep ctx g message) (Except.ok acc)
          = Except.ok (acc + sigs.countP (entryValid ctx g message)) := by
  intro sigs
  induction sigs with
  | nil => intro _ acc; simp
  | cons e l ih =>
    intro h acc
    have he := h e (List.mem_cons_self e l)
    have htail := fun x hx => h x (List.mem_cons_of_mem _ hx)
    rcases entryVote_cases ctx g message e.1 e.2 with h0 | h1 | ⟨m, hm⟩
    · have hstep : vstep ctx g message (Except.ok acc) e = Except.ok (acc + 0) := by
        simp [vstep, h0]
      have hval : entryValid ctx g message e = false := by
        simp [entryValid, h0]
      rw [List.foldl_cons, hstep, ih htail, List.countP_cons, hval]
      simp
    · have hstep : vstep ctx g message (Except.ok acc) e = Except.ok (acc + 1) := by
        simp [vstep, h1]
      have hval : entryValid ctx g message e = true := by
        simp [entryValid, h1]
      rw [List.foldl_cons, hstep, ih htail, List.countP_cons, hval]
      congr 1
      simp
      omega
    · rw [hm] at he
      simp [exceptOk] at he

/-- C6: whenever every endorsement entry is well-formed (its member's key
and its signature decode — which is what "cryptographically correct
endorsements" presupposes), `verify_proposal` returns `ok` of exactly the
test `threshold ≤ count`, where `count` is the number of entries that
name a roster member and whose signature verifies; entries naming
unknown members are skipped and do not affect the count. -/
theorem verify_proposal_iff_threshold {K S : Type} (ctx : SigCtx K S)
    (g : DaoGroup) (message : List ℕ) (sigs : List (String × String))
    (h : ∀ e ∈ sigs, exceptOk (entryVote ctx g message e.1 e.2) = true) :
    verify_proposal ctx g message sigs
      = Except.ok (decide (g.threshold
          ≤ sigs.countP (entryValid ctx g message))) := by
  unfold verify_proposal
  rw [foldl_vstep_ok ctx g message sigs h 0]
  simp

/-- Witness for C6. -/
theorem verify_proposal_iff_threshold_witness :
    verify_proposal ctxAllOk rosterW [] [("a", "s")]
      = Except.ok (decide (rosterW.threshold
          ≤ List.countP (entryValid ctxAllOk rosterW []) [("a", "s")])) :=
  verify_proposal_iff_threshold ctxAllOk rosterW [] [("a", "s")] (by decide)

/-- C3 counterexample: one endorsement entry whose roster member's stored
public key fails hex decoding makes `verify_proposal` abort with the
propagated error — no boolean result is produced, the entry is not
skipped. -/
theorem verify_proposal_decode_aborts_concrete :
    verify_proposal ctxBadHex rosterW [] [("a", "s")]
      = Except.error "Odd number of digits" := rfl

/-- C3 amended: a failure to decode one matched endorsement's public key
or signature aborts the whole quorum evaluation with an error (the source
propagates it with `?`); only entries naming unknown members, or entries
whose well-formed signature fails verification, are skipped. -/
theorem verify_proposal_error_of_bad_entry {K S : Type} (ctx : SigCtx K S)
    (g : DaoGroup) (message : List ℕ) (sigs : List (String × String))
    (h : ∃ e ∈ sigs, exceptOk (entryVote ctx g message e.1 e.2) = false) :
    exceptOk (verify_proposal ctx g message sigs) = false := by
  have main : ∀ (l : List (String × String)),
      (∃ e ∈ l, exceptOk (entryVote ctx g message e.1 e.2) = false) →
      ∀ acc : ℕ, ∃ m,
        l.foldl (vstep ctx g message) (Except.ok acc) = Except.error m := by
    intro l
    induction l with
    | nil => rintro ⟨e, he, -⟩ acc; exact absurd he (List.not_mem_nil e)
    | cons e l ih =>
      rintro ⟨x, hx, hbad⟩ acc
      rcases List.mem_cons.mp hx with rfl | hx'
      · rcases entryVote_cases ctx g message x.1 x.2 with h0 | h1 | ⟨m, hm⟩
        · rw [h0] at hbad; simp [exceptOk] at hbad
        · rw [h1] at hbad; simp [exceptOk] at hbad
        · refine ⟨m, ?_⟩
          have hstep : vstep ctx g message (Except.ok acc) x = Except.error m := by
            simp [vstep, hm]
          rw [List.foldl_cons, hstep, foldl_vstep_error]
      · rcases entryVote_cases ctx g message e.1 e.2 with h0 | h1 | ⟨m, hm⟩
        · have hstep : vstep ctx g message (Except.ok acc) e = Except.ok (acc + 0) := by
            simp [vstep, h0]
          rw [List.foldl_cons, hstep]
          exact ih ⟨x, hx', hbad⟩ _
        · have hstep : vstep ctx g message (Except.ok acc) e = Except.ok (acc + 1) := by
            simp [vstep, h1]
          rw [List.foldl_cons, hstep]
          exact ih ⟨x, hx', hbad⟩ _
        · refine ⟨m, ?_⟩
          have hstep : vstep ctx g message (Except.ok acc) e = Except.error m := by
            simp [vstep, hm]
          rw [List.foldl_cons, hstep, foldl_vstep_error]
  obtain ⟨m, hm⟩ := main sigs h 0
  unfold verify_proposal
  rw [hm]
  rfl

/-- Witness for the amended C3. -/
theorem verify_proposal_error_of_bad_entry_witness :
    exceptOk (verify_proposal ctxBadHex rosterW [] [("a", "s")]) = false :=
  verify_proposal_error_of_bad_entry ctxBadHex rosterW [] [("a", "s")] (by decide)

end STC

